import Mathlib

/-!
Verification of the `synonomous` package (src/index.js).

The source file contains two copies of the module separated by a marker;
we refer to them as copy 1 (lines 1-203) and copy 2 (lines 204-378).

All string transformers are built from JavaScript regex replaces over ASCII
character classes (`[a-z]`, `[A-Z]`, `[0-9]`, `[^a-z0-9]/i`, ...).  We embed
strings as their character lists and translate each global regex replace into
a structurally recursive scan, reproducing the left-to-right, leftmost-match,
greedy semantics of `String.prototype.replace` with the `g` flag.
-/

namespace Synonomous

/-- ASCII lower-case letter, `[a-z]` (code points 97-122). -/
def isAsciiLower (c : Char) : Bool := 97 ≤ c.toNat && c.toNat ≤ 122

/-- ASCII upper-case letter, `[A-Z]` (code points 65-90). -/
def isAsciiUpper (c : Char) : Bool := 65 ≤ c.toNat && c.toNat ≤ 90

/-- ASCII decimal digit, `[0-9]` / `\d` (code points 48-57). -/
def isAsciiDigit (c : Char) : Bool := 48 ≤ c.toNat && c.toNat ≤ 57

/-- Alphanumeric under the `i` flag: `[a-z0-9]/i`, i.e. ASCII letter or digit.
Every other character (including non-ASCII) is "punctuation" for the
transformers' purposes, exactly as in the JS regexes. -/
def isAlnumCh (c : Char) : Bool := isAsciiLower c || isAsciiUpper c || isAsciiDigit c

/-- ASCII upper-casing of one character, as `String.prototype.toUpperCase`
acts on ASCII.  (The transformers only ever upper-case output of the earlier
punctuation pass, which is ASCII-alphanumeric or `_`, so the ASCII fragment
is faithful there.) -/
def asciiUpperChar (c : Char) : Char :=
  if isAsciiLower c then Char.ofNat (c.toNat - 32) else c

/-- ASCII lower-casing of one character (`toLowerCase` on ASCII). -/
def asciiLowerChar (c : Char) : Char :=
  if isAsciiUpper c then Char.ofNat (c.toNat + 32) else c

/-- `REGEX_ALL_PUNC_RUN_BEFORE_LETTER = /[^a-z0-9]+([a-z0-9])?/ig` replaced by
`WITH_UPPER_CASE` (the captured character upper-cased, or nothing at the very
end).  Scanning left to right this deletes every run of non-alphanumerics and
upper-cases an alphanumeric character that immediately follows such a run.
The flag records whether the previous character was part of a punctuation
run (so the current alphanumeric is the regex's captured group). -/
def camelAux : Bool → List Char → List Char
  | _, [] => []
  | afterPunc, c :: cs =>
    if isAlnumCh c then (if afterPunc then asciiUpperChar c else c) :: camelAux false cs
    else camelAux true cs

/-- `REGEX_INITIAL_DIGIT = /^(\d)/` replaced by `WITH_DOLLAR_PREFIX = '$$$1'`:
when the string begins with a digit, prepend `$`. -/
def dollarIfDigitL : List Char → List Char
  | [] => []
  | c :: cs => if isAsciiDigit c then '$' :: c :: cs else c :: cs

/-- `REGEX_INITIAL_CAPITAL = /^([A-Z])/` replaced by `WITH_LOWER_CASE`:
lower-case an initial capital letter. -/
def lowerInitialCap : List Char → List Char
  | [] => []
  | c :: cs => if isAsciiUpper c then asciiLowerChar c :: cs else c :: cs

/-- `Synonomous.prototype.verbatim` (src/index.js:84-86): `key + ''`,
which is the identity on strings.  (`getSynonyms` only calls transformers on
a value it has checked to be a string.) -/
def verbatim (key : String) : String := key

/-- `Synonomous.prototype.toCamelCase` (src/index.js:99-104): the three
replaces in source order. -/
def toCamelCase (key : String) : String :=
  String.mk (lowerInitialCap (dollarIfDigitL (camelAux false key.data)))

/-- `REGEX_ALL_PUNC_RUN = /[^a-z0-9]+/gi` replaced by `'_'`: every maximal run
of non-alphanumerics becomes a single underscore.  The flag records whether we
are inside a run whose underscore has already been emitted. -/
def puncRunAux : Bool → List Char → List Char
  | _, [] => []
  | inRun, c :: cs =>
    if isAlnumCh c then c :: puncRunAux false cs
    else if inRun then puncRunAux true cs
    else '_' :: puncRunAux true cs

/-- `REGEX_CAMEL_CASE_OR_UNDERSCORE = /([^_A-Z])([A-Z]+)/g` replaced by
`'$1_$2'`: insert an underscore between a character that is neither `_` nor
upper-case and a following upper-case run.  Since a match can only start at a
non-upper-case character, and a consumed capital run contains only upper-case
characters, the global scan is equivalent to this single pairwise pass. -/
def camelBoundary : List Char → List Char
  | [] => []
  | [c] => [c]
  | c :: d :: cs =>
    if (!(c = '_') && !(isAsciiUpper c)) && isAsciiUpper d then
      c :: '_' :: camelBoundary (d :: cs)
    else
      c :: camelBoundary (d :: cs)

/-- `Synonomous.prototype.toAllCaps` on character lists: the four steps of
src/index.js:116-122 in source order. -/
def toAllCapsL (l : List Char) : List Char :=
  (dollarIfDigitL (camelBoundary (puncRunAux false l))).map asciiUpperChar

/-- `Synonomous.prototype.toAllCaps` (src/index.js:116-122). -/
def toAllCaps (key : String) : String :=
  String.mk (toAllCapsL key.data)

/-- Word separator of `toTitle`: `[\s\-_]`.  JS `\s` is Unicode white space;
the ASCII white-space characters together with `-` and `_` cover every use in
this development. -/
def isSepCh (c : Char) : Bool :=
  c = ' ' || c = '\t' || c = '\n' || c = '\r' || c = '\x0b' || c = '\x0c' || c = '-' || c = '_'

/-- `REGEXP_WORD_SEPARATORS = /[\s\-_]*([^\s\-_])([^\s\-_]+)/g` replaced by
`WITH_CAPTIAL_LETTER` (`b.toUpperCase() + c`).  A match needs a word of at
least two non-separator characters ( `+` on the third group); it consumes the
maximal separator run before it, upper-cases the word's first character and
keeps the rest.  Positions where no match starts are copied unchanged, which
leaves separators before one-character words in place, as in JS.

Each recursive call strictly shortens the list, so running the scan on fuel
equal to the list length is exact; the fuel formulation keeps the function
structurally recursive (hence kernel-evaluable).  The `0, l` fallback is
unreachable when starting from `titleWords`. -/
def titleWordsF : Nat → List Char → List Char
  | _, [] => []
  | 0, l => l
  | fuel + 1, c :: cs =>
    match (if isSepCh c then (c :: cs).dropWhile isSepCh else c :: cs) with
    | b :: d :: t =>
      if !(isSepCh d) then
        asciiUpperChar b :: ((d :: t).takeWhile (fun x => !(isSepCh x))
          ++ titleWordsF fuel ((d :: t).dropWhile (fun x => !(isSepCh x))))
      else c :: titleWordsF fuel cs
    | _ => c :: titleWordsF fuel cs

/-- The word-separator replace of `toTitle`, run on sufficient fuel. -/
def titleWords (l : List Char) : List Char := titleWordsF l.length l

/-- `REGEXP_CAPITAL_LETTERS = /[A-Z]+/g` replaced by `WITH_PREFIXED_SPACE`
(`' $&'`): a space is inserted before every maximal run of capitals.  The
flag records being inside a run already prefixed. -/
def spaceBeforeCapsAux : Bool → List Char → List Char
  | _, [] => []
  | inRun, c :: cs =>
    if isAsciiUpper c then
      (if inRun then [c] else [' ', c]) ++ spaceBeforeCapsAux true cs
    else c :: spaceBeforeCapsAux false cs

/-- `REGEXP_OVER_CAPITALIZED_WORDS = /([A-Z]+)([A-Z][a-z])/g` replaced by
`WITH_SEPARATE_WORDS` (`'$1 $2'`): a space is inserted before the last
capital of a run of at least two capitals that is followed by a lower-case
letter.  Pairwise: insert between `a` and `b` when `a`, `b` are capitals and
the next character is lower-case. -/
def splitOverCaps : List Char → List Char
  | a :: b :: c :: t =>
    if isAsciiUpper a && isAsciiUpper b && isAsciiLower c then
      a :: ' ' :: splitOverCaps (b :: c :: t)
    else
      a :: splitOverCaps (b :: c :: t)
  | l => l

/-- JS `String.prototype.trim` (ASCII white space suffices here). -/
def isWspCh (c : Char) : Bool :=
  c = ' ' || c = '\t' || c = '\n' || c = '\r' || c = '\x0b' || c = '\x0c'

/-- Trim leading and trailing white space. -/
def trimL (l : List Char) : List Char :=
  ((l.dropWhile isWspCh).reverse.dropWhile isWspCh).reverse

/-- `Synonomous.prototype.toTitle` (src/index.js:131-137): lower-case the
whole key when it contains no lower-case letter
(`REGEXP_LOWER_CASE_LETTER.test`), then the three replaces, then `trim`. -/
def toTitle (key : String) : String :=
  let base := if key.data.any isAsciiLower then key.data else key.data.map asciiLowerChar
  String.mk (trimL (splitOverCaps (spaceBeforeCapsAux false (titleWords base))))

example : toCamelCase "background-color" = "backgroundColor" := by decide
example : toAllCaps "background-color" = "BACKGROUND_COLOR" := by decide
example : toAllCaps "borderLeft" = "BORDER_LEFT" := by decide
example : toCamelCase "1stPlace" = "$1stPlace" := by decide
example : toTitle "background-color" = "Background Color" := by decide
example : toTitle "HTTPRequest" = "HTTP Request" := by decide
example : toAllCaps "0a" = "$0A" := by decide
example : toAllCaps "$0A" = "_0_A" := by decide

/-! ## JavaScript values, arrays and property lookup

`getSynonyms` tests membership with the JS `in` operator, which consults the
*property keys* of an object: for an `Array` those are the canonical index
strings below its length, `"length"`, any added named properties, and the
string-keyed properties inherited from `Array.prototype` and
`Object.prototype`.  We model all of these. -/

/-- Non-array JavaScript values that occur as labels and record fields. -/
inductive JSVal where
  | vstr (s : String)
  | vundef
  | vnull
  | vnum (n : Int)
  | vbool (b : Bool)
deriving DecidableEq, Repr

/-- An element of a decorated list: a raw string, a structured record
(string-keyed fields), `undefined` (e.g. an out-of-range index), `null`, or
a number. -/
inductive Item where
  | str (s : String)
  | record (fields : List (String × JSVal))
  | undef
  | nullI
  | num (n : Int)
deriving DecidableEq, Repr

/-- A JS `Array` used as a dictionary: its positional elements plus the own
non-index string-keyed properties added by decoration (in insertion order). -/
structure JSList where
  elts : List Item
  extra : List (String × Item)
deriving DecidableEq, Repr

/-- First-match association lookup (JS own-property lookup on our `extra`
lists and record field lists). -/
def assocLookup {α : Type} : List (String × α) → String → Option α
  | [], _ => none
  | p :: t, k => if p.1 = k then some p.2 else assocLookup t k

/-- JS property assignment on an association list: overwrite the existing
binding in place, or append a new one. -/
def assocSet {α : Type} : List (String × α) → String → α → List (String × α)
  | [], k, v => [(k, v)]
  | p :: t, k, v => if p.1 = k then (k, v) :: t else p :: assocSet t k v

/-- Numeric value of a digit run. -/
def digitsVal (l : List Char) : Nat :=
  l.foldl (fun acc c => 10 * acc + (c.toNat - 48)) 0

/-- A canonical array-index string: a non-empty run of digits with no leading
zero (except `"0"` itself), as produced by JS `ToString` on an index.  (JS
caps indices at `2^32 - 2`; no index near that bound occurs here.) -/
def canonIdx (k : String) : Option Nat :=
  match k.data with
  | [] => none
  | c :: cs =>
    if (c :: cs).all isAsciiDigit && (!(c = '0') || cs.isEmpty) then some (digitsVal (c :: cs))
    else none

/-- String-keyed properties inherited by every `Array` from `Array.prototype`
and `Object.prototype` in a standard ES engine; all are visible to `in`. -/
def protoKeys : List String :=
  ["constructor", "at", "concat", "copyWithin", "entries", "every", "fill",
   "filter", "find", "findIndex", "findLast", "findLastIndex", "flat",
   "flatMap", "forEach", "includes", "indexOf", "join", "keys", "lastIndexOf",
   "map", "pop", "push", "reduce", "reduceRight", "reverse", "shift", "slice",
   "some", "sort", "splice", "toLocaleString", "toReversed", "toSorted",
   "toSpliced", "toString", "unshift", "values", "with", "hasOwnProperty",
   "isPrototypeOf", "propertyIsEnumerable", "valueOf", "__defineGetter__",
   "__defineSetter__", "__lookupGetter__", "__lookupSetter__", "__proto__"]

/-- `k in a` for a plain JS array of `len` elements and no added properties
(the `synonyms` accumulator of `getSynonyms`): own keys are the indices below
`len` and `"length"`; the prototype chain contributes `protoKeys`.  Note the
*values* held by the array are irrelevant to `in`. -/
def jsArrayHasKey (len : Nat) (k : String) : Bool :=
  k = "length" ||
    (match canonIdx k with
     | some i => decide (i < len)
     | none => false) ||
    protoKeys.contains k

/-- `k in list` for a decorated list: additionally the added named
properties. -/
def jsListHasKey (l : JSList) (k : String) : Bool :=
  jsArrayHasKey l.elts.length k || (assocLookup l.extra k).isSome

/-- `list[k] = v` for a string key `k`.  A canonical index below the length
overwrites the element; a canonical index beyond it extends the array
(holes modeled as `undefined`).  Writing `"length"` would coerce and resize
in JS; it is unreachable from `decorateList`, whose write is guarded by
`!(k in list)` and `"length"` is always an own key, so we leave the list
unchanged in that dead branch.  All other keys become own named
properties. -/
def jsListSet (l : JSList) (k : String) (v : Item) : JSList :=
  match canonIdx k with
  | some i =>
    if i < l.elts.length then JSList.mk (l.elts.set i v) l.extra
    else JSList.mk (l.elts ++ List.replicate (i - l.elts.length) Item.undef ++ [v]) l.extra
  | none =>
    if k = "length" then l
    else JSList.mk l.elts (assocSet l.extra k v)

/-! ## The transformer registry and `getSynonyms` (copy 1) -/

/-- What `this[key]` resolves to on a (default-configured) `Synonomous`
instance, and whether `typeof this[key] === 'function'`.  The own prototype
properties are those of the object literal at src/index.js:49-201; the
ambient `Object.prototype` entries are function-valued (or, for `__proto__`,
an accessor producing an object) in a standard engine.  Invoking a
function-valued non-transformer property as a transformer is not exercised
by any claim; see `getSynonymsGo`. -/
inductive PropKind where
  | transformer (f : String → String)
  | fnOther
  | nonFn

/-- Property table for `this[key]` (default instance, no consumer-registered
transformers).  Keys not listed are absent, hence not functions. -/
def propKind (k : String) : Option PropKind :=
  if k = "verbatim" then some (.transformer verbatim)
  else if k = "toCamelCase" then some (.transformer toCamelCase)
  else if k = "toAllCaps" then some (.transformer toAllCaps)
  else if k = "toTitle" then some (.transformer toTitle)
  else if k = "getSynonyms" || k = "decorateList" || k = "constructor" then some .fnOther
  else if k = "transformations" || k = "propName" then some .nonFn
  else if k = "toString" || k = "toLocaleString" || k = "valueOf"
       || k = "hasOwnProperty" || k = "isPrototypeOf" || k = "propertyIsEnumerable"
       || k = "__defineGetter__" || k = "__defineSetter__"
       || k = "__lookupGetter__" || k = "__lookupSetter__" then some .fnOther
  else if k = "__proto__" then some .nonFn
  else none

/-- `typeof this[k] === 'function'`. -/
def propIsFunction (k : String) : Bool :=
  match propKind k with
  | some (.transformer _) => true
  | some .fnOther => true
  | _ => false

/-- `this[k]` is one of the four registered transformer functions. -/
def propIsTransformer (k : String) : Bool :=
  match propKind k with
  | some (.transformer _) => true
  | _ => false

/-- The message of the `ReferenceError` thrown at src/index.js:150. -/
def unknownMsg (k : String) : String :=
  "Unknown transformer \"" ++ k ++ "\""

/-- The loop body of `getSynonyms` (src/index.js:148-156): for each name,
throw `ReferenceError` if `this[key]` is not a function, otherwise run the
transformer and push the result unless it is blank or `synonym in synonyms`
holds (note: `in` checks the accumulator's property *keys* — its length's
indices, `"length"` and the prototype keys — never its element values).

A function-valued property that is not one of the four transformers
(`getSynonyms`, `decorateList`, `constructor`, `Object.prototype` methods)
would be invoked here by the source; in JS this yields a nested non-string
value, a `TypeError`, or unbounded recursion depending on the name.  No
claim exercises that path; the model makes it an abrupt completion. -/
def getSynonymsGo (s : String) : List String → List String → Except String (List String)
  | [], acc => .ok acc
  | k :: rest, acc =>
    match propKind k with
    | some (.transformer f) =>
      let synonym := f s
      if synonym != "" && !(jsArrayHasKey acc.length synonym) then
        getSynonymsGo s rest (acc ++ [synonym])
      else
        getSynonymsGo s rest acc
    | some .fnOther => .error "non-transformer callable invoked as transformer"
    | _ => .error (unknownMsg k)

/-- `Synonomous.prototype.getSynonyms` (src/index.js:145-159) with the
effective transformation selection already resolved
(`transformations || this.transformations`).  A thrown `ReferenceError` is
the `.error` case; the local `synonyms` array is discarded when it
propagates, so no partial list is returned. -/
def getSynonyms (name : JSVal) (sel : List String) : Except String (List String) :=
  match name with
  | .vstr s => if s = "" then .ok [] else getSynonymsGo s sel []
  | _ => .ok []

example : getSynonyms (.vstr "abc") ["verbatim", "toCamelCase"] = .ok ["abc", "abc"] := rfl
example : getSynonyms (.vstr "length") ["verbatim"] = .ok [] := rfl
example : getSynonyms (.vstr "background-color") ["verbatim", "toCamelCase"]
    = .ok ["background-color", "backgroundColor"] := rfl

/-! ## `decorateList` (both copies) -/

/-- Instance configuration: `this.transformations` and `this.propName`
(defaults at src/index.js:64-67 and 79, overridable via the constructor). -/
structure Config where
  transformations : List String
  propName : String
deriving Repr

/-- The prototype defaults. -/
def defaultConfig : Config := Config.mk ["verbatim", "toCamelCase"] "name"

/-- `propName = propName || this.propName` (src/index.js:189): an omitted or
falsy (empty-string) argument falls back to the configured default. -/
def resolvePropName (cfg : Config) : Option String → String
  | some p => if p = "" then cfg.propName else p
  | none => cfg.propName

/-- `typeof item !== 'object' ? item : item[propName]` (src/index.js:191).
`typeof null === 'object'`, so a `null` element is dereferenced and throws a
`TypeError`; a missing record field yields `undefined`. -/
def itemLabel : Item → String → Except String JSVal
  | .str s, _ => .ok (.vstr s)
  | .num n, _ => .ok (.vnum n)
  | .undef, _ => .ok .vundef
  | .nullI, _ => .error "TypeError: cannot read properties of null"
  | .record fields, p => .ok ((assocLookup fields p).getD .vundef)

/-- `synonym.replace(REGEX_INITIAL_DIGIT, WITH_DOLLAR_PREFIX)` applied by
`decorateList` itself to every synonym (src/index.js:193). -/
def dollarIfDigitStr (s : String) : String := String.mk (dollarIfDigitL s.data)

/-- The inner `forEach` of `decorateList` (src/index.js:192-197): for each
synonym, `$`-prefix an initial digit, then add it as a key unless
`synonym in list` already holds. -/
def addSynonyms (list : JSList) (item : Item) : List String → JSList
  | [] => list
  | synonym :: rest =>
    addSynonyms
      (if jsListHasKey list (dollarIfDigitStr synonym) then list
       else jsListSet list (dollarIfDigitStr synonym) item)
      item rest

/-- The outer `forEach` of `decorateList` (src/index.js:190-198).  The list
of elements is snapshotted before the loop; decoration never changes the
positional elements, so this matches JS iteration over the aliased array.  A
throw from `getSynonyms` (or from dereferencing a `null` element) aborts the
loop but keeps the keys already added: the result is the final list state
paired with the propagated error, if any. -/
def decorateItems (cfg : Config) (propName : String) :
    JSList → List Item → JSList × Option String
  | list, [] => (list, none)
  | list, item :: rest =>
    match itemLabel item propName with
    | .error e => (list, some e)
    | .ok label =>
      match getSynonyms label cfg.transformations with
      | .error e => (list, some e)
      | .ok syns => decorateItems cfg propName (addSynonyms list item syns) rest

/-- The two call shapes of `decorateList`, resolved by
`typeof index === 'number'` (src/index.js:182): a numeric first argument
selects one element; otherwise the first argument is the list and the second
the property path.  (Non-integer numeric indices also yield `undefined` in
JS and are not modeled separately.) -/
inductive DLArgs where
  | byIndex (index : Nat) (list : JSList) (propName : Option String)
  | whole (list : JSList) (propName : Option String)

/-- The list a call decorates. -/
def DLArgs.list : DLArgs → JSList
  | .byIndex _ l _ => l
  | .whole l _ => l

/-- `list[index]`, `undefined` when out of range. -/
def eltAt (l : JSList) (i : Nat) : Item :=
  (l.elts.getD i Item.undef)

/-- `Synonomous.prototype.decorateList`, copy 1 (src/index.js:180-200).
In the promoted shape, `propName = arguments[1]` is the second actual
argument. -/
def decorateList1 (cfg : Config) : DLArgs → JSList × Option String
  | .byIndex i list pn => decorateItems cfg (resolvePropName cfg pn) list [eltAt list i]
  | .whole list pn => decorateItems cfg (resolvePropName cfg pn) list list.elts

/-- `String(array)`: `Array.prototype.toString` joins the elements with `,`;
`undefined` and `null` render as empty, records as `"[object Object]"`. -/
def jsItemToString : Item → String
  | .str s => s
  | .record _ => "[object Object]"
  | .undef => ""
  | .nullI => ""
  | .num n => toString n

/-- `String(list)` for an array of items. -/
def jsArrayToString (items : List Item) : String :=
  String.intercalate "," (items.map jsItemToString)

/-- `Synonomous.prototype.decorateList`, copy 2 (src/index.js:355-375).
Its promoted branch runs `list = elements = index; propName = list;`, so
`propName` is set to the *list itself* (an array, always truthy, so the
`propName || this.propName` default is not taken), and the second actual
argument is ignored; element field access then stringifies the array into
the property key.  The `byIndex` branch is identical to copy 1.  (Copy 2's
`getSynonyms` takes no selection override and its prototype lacks `toTitle`;
the claims evaluate it only on configurations where the registries agree.) -/
def decorateList2 (cfg : Config) : DLArgs → JSList × Option String
  | .byIndex i list pn => decorateItems cfg (resolvePropName cfg pn) list [eltAt list i]
  | .whole list _ => decorateItems cfg (jsArrayToString list.elts) list list.elts

example :
    decorateList1 defaultConfig
      (.whole (JSList.mk [Item.record [("style", .vstr "borderLeft")]] []) (some "style"))
    = (JSList.mk [Item.record [("style", .vstr "borderLeft")]]
        [("borderLeft", Item.record [("style", .vstr "borderLeft")])], none) := by decide

example :
    decorateList2 defaultConfig
      (.whole (JSList.mk [Item.record [("style", .vstr "borderLeft")]] []) (some "style"))
    = (JSList.mk [Item.record [("style", .vstr "borderLeft")]] [], none) := by decide

example :
    decorateList1 (Config.mk ["verbatim"] "name") (.whole (JSList.mk [.str "x", .str "1"] []) none)
    = (JSList.mk [.str "x", .str "1"] [("x", .str "x"), ("$1", .str "1")], none) := by decide

/-! ## Own-property reads of a decorated list

Used to state the no-overwrite and frame claims: the own string-keyed
properties of a decorated list are its positional indices, `"length"`, and
the added named keys. -/

/-- The value an own key of a decorated list holds: an element/added item, or
the numeric `length`. -/
inductive EntryVal where
  | elem (item : Item)
  | len (n : Nat)
deriving DecidableEq, Repr

/-- Read an own property of a decorated list: `"length"`, a canonical index
below the length, or an added named key. -/
def jsGetOwn (l : JSList) (k : String) : Option EntryVal :=
  if k = "length" then some (.len l.elts.length)
  else
    match canonIdx k with
    | some i =>
      match l.elts[i]? with
      | some item => some (.elem item)
      | none => (assocLookup l.extra k).map .elem
    | none => (assocLookup l.extra k).map .elem

/-! ## `drilldown` (modelled from the spec)

The repository's path utilities (`toPath`, `drilldown`) are not part of
src/index.js; only the specification describes them. -/

/-- Modelled from the spec: a value in the object graph `drilldown` walks —
a mapping with string keys, or a non-mapping value that is either falsy
(`undefined`, `null`, `0`, `""`, `false`) or truthy.  src/ does not contain
the path utility; this follows §4.2 of the specification. -/
inductive DVal where
  | obj (fields : List (String × DVal))
  | falsy
  | prim

/-- Falsiness of a `DVal` (a mapping object is always truthy in JS, even when
empty). -/
def DVal.isFalsy : DVal → Bool
  | .falsy => true
  | _ => false

/-- Modelled from the spec: `drilldown(root, path)` "walks `path` segment by
segment from `root`; for each segment, if the nested value is absent/falsy,
creates an empty ownerless mapping object at that slot; returns the mapping
found/created at the end of the path (or `root` itself if path is empty)."
The result is the updated root paired with the returned mapping; writing the
recursively-updated sub-value back into the field models the in-place
mutation of the shared nested object.  (The spec does not define drilling
into a truthy non-mapping; that branch returns the value unchanged and is
outside every claim.) -/
def drilldown (root : DVal) (path : List String) : DVal × DVal :=
  match path with
  | [] => (root, root)
  | k :: rest =>
    match root with
    | .obj fields =>
      let sub :=
        match assocLookup fields k with
        | some v => if v.isFalsy then DVal.obj [] else v
        | none => DVal.obj []
      let step := drilldown sub rest
      (.obj (assocSet fields k step.1), step.2)
    | other => (other, other)

/-- A path all of whose steps resolve to existing truthy values (no creation
needed anywhere along the walk). -/
def dresolve (v : DVal) (path : List String) : Option DVal :=
  match path with
  | [] => some v
  | k :: rest =>
    match v with
    | .obj fields =>
      match assocLookup fields k with
      | some w => if w.isFalsy then none else dresolve w rest
      | none => none
    | _ => none

example : drilldown (.obj []) ["a", "b"]
    = (.obj [("a", .obj [("b", .obj [])])], .obj []) := rfl

/-! ## Association-list lemmas -/

theorem assocLookup_append_some {α : Type} {l : List (String × α)} (t : List (String × α))
    {k : String} {v : α} (h : assocLookup l k = some v) :
    assocLookup (l ++ t) k = some v := by
  induction l with
  | nil => simp [assocLookup] at h
  | cons p l ih =>
    by_cases hp : p.1 = k <;> simp_all [assocLookup]

theorem assocLookup_append_isSome {α : Type} {l t : List (String × α)} {k : String}
    (h : (assocLookup (l ++ t) k).isSome) :
    (assocLookup l k).isSome ∨ (assocLookup t k).isSome := by
  induction l with
  | nil => exact Or.inr (by simpa [assocLookup] using h)
  | cons p l ih =>
    by_cases hp : p.1 = k <;> simp_all [assocLookup]

theorem assocLookup_isSome_exists_mem {α : Type} {l : List (String × α)} {k : String}
    (h : (assocLookup l k).isSome) : ∃ p ∈ l, p.1 = k := by
  induction l with
  | nil => simp [assocLookup] at h
  | cons p l ih =>
    by_cases hp : p.1 = k
    · exact ⟨p, List.mem_cons_self .., hp⟩
    · obtain ⟨q, hq, hqk⟩ := ih (by simpa [assocLookup, hp] using h)
      exact ⟨q, List.mem_cons_of_mem _ hq, hqk⟩

theorem assocSet_eq_append {α : Type} {l : List (String × α)} {k : String} (v : α)
    (h : assocLookup l k = none) : assocSet l k v = l ++ [(k, v)] := by
  induction l with
  | nil => rfl
  | cons p l ih =>
    by_cases hp : p.1 = k <;> simp_all [assocLookup, assocSet]

theorem assocSet_lookup_self {α : Type} {l : List (String × α)} {k : String} {v : α}
    (h : assocLookup l k = some v) : assocSet l k v = l := by
  induction l with
  | nil => simp [assocLookup] at h
  | cons p l ih =>
    by_cases hp : p.1 = k
    · simp only [assocLookup, hp, if_pos] at h
      injection h with h2
      simp only [assocSet, hp, if_pos]
      rw [← hp, ← h2]
    · simp_all [assocLookup, assocSet]

/-! ## Shape of the keys `decorateList` adds -/

theorem canonIdx_dollarIfDigitStr (s : String) : canonIdx (dollarIfDigitStr s) = none := by
  show canonIdx (String.mk (dollarIfDigitL s.data)) = none
  cases s.data with
  | nil => rfl
  | cons c cs =>
    by_cases hdig : isAsciiDigit c
    · have h4 : isAsciiDigit '$' = false := rfl
      simp [dollarIfDigitL, hdig, canonIdx, h4]
    · simp [dollarIfDigitL, hdig, canonIdx]

theorem dollarIfDigitStr_head_not_digit (s : String) (c : Char)
    (h : (dollarIfDigitStr s).data.head? = some c) : isAsciiDigit c = false := by
  have hd : (dollarIfDigitStr s).data = dollarIfDigitL s.data := rfl
  rw [hd] at h
  cases hs : s.data with
  | nil => rw [hs] at h; simp [dollarIfDigitL] at h
  | cons a cs =>
    rw [hs] at h
    by_cases hdig : isAsciiDigit a = true
    · simp [dollarIfDigitL, hdig] at h
      rw [← h]
      rfl
    · simp [dollarIfDigitL, hdig] at h
      rw [← h]
      simpa using hdig

/-- What one iteration of the synonym loop does when it writes: the element
vector is untouched and the key is appended to the named properties. -/
theorem jsListSet_fresh (list : JSList) (s : String) (item : Item)
    (h : jsListHasKey list (dollarIfDigitStr s) = false) :
    jsListSet list (dollarIfDigitStr s) item
      = JSList.mk list.elts (list.extra ++ [(dollarIfDigitStr s, item)]) := by
  have hidx := canonIdx_dollarIfDigitStr s
  simp only [jsListHasKey, jsArrayHasKey, Bool.or_eq_false_iff] at h
  obtain ⟨⟨⟨hlen, -⟩, -⟩, hsome⟩ := h
  have hlen2 : ¬ dollarIfDigitStr s = "length" := by simpa using hlen
  have hlook : assocLookup list.extra (dollarIfDigitStr s) = none := by
    cases ho : assocLookup list.extra (dollarIfDigitStr s) with
    | none => rfl
    | some v => rw [ho] at hsome; simp at hsome
  simp only [jsListSet, hidx]
  rw [if_neg hlen2, assocSet_eq_append _ hlook]

/-- Invariant of the inner synonym loop (src/index.js:192-197): positional
elements are never touched and named keys are only appended, every appended
key being the `$`-prefixed form of some synonym. -/
theorem addSynonyms_cons (list : JSList) (item : Item) (syn : String) (rest : List String) :
    addSynonyms list item (syn :: rest)
      = addSynonyms
          (if jsListHasKey list (dollarIfDigitStr syn) then list
           else jsListSet list (dollarIfDigitStr syn) item)
          item rest := rfl

theorem addSynonyms_spec (item : Item) :
    ∀ (syns : List String) (list : JSList),
      (addSynonyms list item syns).elts = list.elts ∧
      ∃ tail, (addSynonyms list item syns).extra = list.extra ++ tail ∧
        ∀ p ∈ tail, ∃ s, p.1 = dollarIfDigitStr s := by
  intro syns
  induction syns with
  | nil => exact fun list => ⟨rfl, [], by simp [addSynonyms], by simp⟩
  | cons syn rest ih =>
    intro list
    rw [addSynonyms_cons]
    by_cases h : jsListHasKey list (dollarIfDigitStr syn) = true
    · rw [if_pos h]
      exact ih list
    · rw [if_neg h]
      have hset := jsListSet_fresh list syn item (by simpa using h)
      have hrec := ih (jsListSet list (dollarIfDigitStr syn) item)
      refine ⟨by rw [hrec.1, hset], ?_⟩
      obtain ⟨tail, htail, hkeys⟩ := hrec.2
      refine ⟨(dollarIfDigitStr syn, item) :: tail, ?_, ?_⟩
      · rw [htail, hset]
        simp
      · intro p hp
        rcases List.mem_cons.mp hp with hp | hp
        · exact ⟨syn, by rw [hp]⟩
        · exact hkeys p hp

/-- Invariant of the outer element loop (src/index.js:190-198), also when the
loop is aborted by a thrown error. -/
theorem decorateItems_spec (cfg : Config) (pn : String) :
    ∀ (items : List Item) (list : JSList),
      (decorateItems cfg pn list items).1.elts = list.elts ∧
      ∃ tail, (decorateItems cfg pn list items).1.extra = list.extra ++ tail ∧
        ∀ p ∈ tail, ∃ s, p.1 = dollarIfDigitStr s := by
  intro items
  induction items with
  | nil => exact fun list => ⟨rfl, [], by simp [decorateItems], by simp⟩
  | cons item rest ih =>
    intro list
    cases hlab : itemLabel item pn with
    | error e => exact ⟨by simp [decorateItems, hlab], [], by simp [decorateItems, hlab], by simp⟩
    | ok label =>
      cases hsyn : getSynonyms label cfg.transformations with
      | error e =>
        exact ⟨by simp [decorateItems, hlab, hsyn], [], by simp [decorateItems, hlab, hsyn], by simp⟩
      | ok syns =>
        have hadd := addSynonyms_spec item syns list
        have hrec := ih (addSynonyms list item syns)
        simp only [decorateItems, hlab, hsyn]
        refine ⟨by rw [hrec.1, hadd.1], ?_⟩
        obtain ⟨t1, ht1, hk1⟩ := hadd.2
        obtain ⟨t2, ht2, hk2⟩ := hrec.2
        refine ⟨t1 ++ t2, by rw [ht2, ht1, List.append_assoc], ?_⟩
        intro p hp
        rcases List.mem_append.mp hp with hp | hp
        · exact hk1 p hp
        · exact hk2 p hp

/-- The loop invariant lifted over both call shapes of `decorateList`
(copy 1). -/
theorem decorateList1_spec (cfg : Config) (args : DLArgs) :
    (decorateList1 cfg args).1.elts = args.list.elts ∧
    ∃ tail, (decorateList1 cfg args).1.extra = args.list.extra ++ tail ∧
      ∀ p ∈ tail, ∃ s, p.1 = dollarIfDigitStr s := by
  cases args with
  | byIndex i list pn => exact decorateItems_spec cfg (resolvePropName cfg pn) [eltAt list i] list
  | whole list pn => exact decorateItems_spec cfg (resolvePropName cfg pn) list.elts list

/-! ## Claim theorems -/

/-- C1: the claim states that `getSynonyms` deduplicates by value.  It does
not: the membership test `!(synonym in synonyms)` consults the accumulator
array's property *keys*, never its element values, so with the default
selection `["verbatim", "toCamelCase"]` the label `"abc"` — whose two
transformer outputs coincide — yields the synonym `"abc"` twice.  This
contradicts both the claim and the function's own documentation ("an array
containing unique non-blank converted names"). -/
theorem getSynonyms_default_duplicates_at_abc :
    getSynonyms (.vstr "abc") defaultConfig.transformations = .ok ["abc", "abc"] := rfl

/-- C2: the claim states `getSynonyms(s, ["verbatim"])` returns `[s]` for
every non-blank `s`.  For `s = "length"` the dedup test `"length" in
synonyms` is true of the empty accumulator array (`length` is an own
property of every JS array), so the verbatim synonym is dropped and the
result is empty — contradicting the claim and the function's own
documentation. -/
theorem getSynonyms_verbatim_length_empty :
    getSynonyms (.vstr "length") ["verbatim"] = .ok [] := rfl

/-- C3: every own key of the list before a `decorateList` call (positional
index, `length`, or named property) holds the same value afterwards: the
write at src/index.js:194-196 is guarded by `!(synonym in list)`, so a
colliding synonym is silently dropped and nothing is overwritten, for every
configuration and call shape, including re-decoration. -/
theorem decorateList_preserves_existing_keys (cfg : Config) (args : DLArgs)
    (k : String) (v : EntryVal) (h : jsGetOwn args.list k = some v) :
    jsGetOwn (decorateList1 cfg args).1 k = some v := by
  obtain ⟨helts, tail, hextra, -⟩ := decorateList1_spec cfg args
  unfold jsGetOwn at h ⊢
  by_cases hk : k = "length"
  · rw [if_pos hk] at h ⊢
    rw [helts]
    exact h
  · rw [if_neg hk] at h ⊢
    cases hc : canonIdx k with
    | some i =>
      rw [hc] at h
      have h2 : (match args.list.elts[i]? with
          | some item => some (EntryVal.elem item)
          | none => Option.map EntryVal.elem (assocLookup args.list.extra k)) = some v := h
      rw [helts]
      show (match args.list.elts[i]? with
          | some item => some (EntryVal.elem item)
          | none => Option.map EntryVal.elem (assocLookup (decorateList1 cfg args).1.extra k))
        = some v
      cases he : args.list.elts[i]? with
      | some it =>
        rw [he] at h2
        exact h2
      | none =>
        rw [he] at h2
        have h4 : Option.map EntryVal.elem (assocLookup args.list.extra k) = some v := h2
        obtain ⟨v0, hv0, rfl⟩ := Option.map_eq_some'.mp h4
        show Option.map EntryVal.elem (assocLookup (decorateList1 cfg args).1.extra k)
          = some (EntryVal.elem v0)
        rw [hextra, assocLookup_append_some tail hv0]
        rfl
    | none =>
      rw [hc] at h
      have h2 : Option.map EntryVal.elem (assocLookup args.list.extra k) = some v := h
      obtain ⟨v0, hv0, rfl⟩ := Option.map_eq_some'.mp h2
      show Option.map EntryVal.elem (assocLookup (decorateList1 cfg args).1.extra k)
        = some (EntryVal.elem v0)
      rw [hextra, assocLookup_append_some tail hv0]
      rfl

/-- C3 witness: re-decorating a list that already maps the key `"x"` to the
number `7` leaves that mapping untouched even though the element `"x"`
produces the colliding synonym `"x"`. -/
theorem decorateList_preserves_existing_keys_witness :
    jsGetOwn (JSList.mk [.str "x"] [("x", Item.num 7)]) "x" = some (.elem (Item.num 7)) ∧
    jsGetOwn (decorateList1 defaultConfig
        (.whole (JSList.mk [.str "x"] [("x", Item.num 7)]) none)).1 "x"
      = some (.elem (Item.num 7)) :=
  ⟨rfl, decorateList_preserves_existing_keys defaultConfig
    (.whole (JSList.mk [.str "x"] [("x", Item.num 7)]) none) "x" (.elem (Item.num 7)) rfl⟩

/-- C10: for every call shape, decoration frames the positional contents:
the element vector (hence every index property and `length`) is unchanged,
and any own named key of the result was either already present or is a
non-index string (no canonical index key is ever added — `decorateList`
`$`-prefixes digit-initial synonyms before writing). -/
theorem decorateList_frames_positional_contents (cfg : Config) (args : DLArgs) :
    (decorateList1 cfg args).1.elts = args.list.elts ∧
    ∀ k, (assocLookup (decorateList1 cfg args).1.extra k).isSome →
      (assocLookup args.list.extra k).isSome ∨ canonIdx k = none := by
  obtain ⟨helts, tail, hextra, hkeys⟩ := decorateList1_spec cfg args
  refine ⟨helts, ?_⟩
  intro k hk
  rw [hextra] at hk
  rcases assocLookup_append_isSome hk with hk | hk
  · exact Or.inl hk
  · obtain ⟨p, hp, rfl⟩ := assocLookup_isSome_exists_mem hk
    obtain ⟨s, hs⟩ := hkeys p hp
    rw [hs]
    exact Or.inr (canonIdx_dollarIfDigitStr s)

/-- C10 witness: decorating `["a-b"]` adds the camel-case key `"aB"`, which
is indeed new and not an index key; the element vector is unchanged. -/
theorem decorateList_frames_positional_contents_witness :
    (decorateList1 defaultConfig (.whole (JSList.mk [Item.str "a-b"] []) none)).1.elts
        = [Item.str "a-b"] ∧
    (assocLookup (decorateList1 defaultConfig
        (.whole (JSList.mk [Item.str "a-b"] []) none)).1.extra "aB").isSome ∧
    ((assocLookup (JSList.mk [Item.str "a-b"] []).extra "aB").isSome ∨ canonIdx "aB" = none) :=
  ⟨(decorateList_frames_positional_contents defaultConfig
      (.whole (JSList.mk [Item.str "a-b"] []) none)).1,
   by decide,
   (decorateList_frames_positional_contents defaultConfig
      (.whole (JSList.mk [Item.str "a-b"] []) none)).2 "aB" (by decide)⟩

/-- C4 counterexample: the claim states verbatim output never receives the
`$` sentinel and that a verbatim synonym colliding with a positional index
is skipped entirely rather than added in prefixed form.  Decorating
`["x", "1"]` with only the `verbatim` transformer, the element `"1"` has the
verbatim synonym `"1"`, which as a plain string collides with index `1`; the
code (src/index.js:193) `$`-prefixes it and adds `"$1"` — a prefixed
variant of a verbatim synonym, which the claim says is never added. -/
theorem decorateList_prefixes_verbatim_digit_synonym :
    decorateList1 (Config.mk ["verbatim"] "name")
        (.whole (JSList.mk [.str "x", .str "1"] []) none)
      = (JSList.mk [.str "x", .str "1"] [("x", .str "x"), ("$1", .str "1")], none) := by decide

/-- C4 as amended: during decoration *every* synonym beginning with a digit
— verbatim output included — receives the `$` sentinel before the
membership check, so the plain digit-initial key is never added, no key the
call adds begins with a digit, and the positional elements (hence every
index slot) are untouched. -/
theorem decorateList_added_keys_nondigit (cfg : Config) (args : DLArgs) :
    (decorateList1 cfg args).1.elts = args.list.elts ∧
    ∀ k c, (assocLookup (decorateList1 cfg args).1.extra k).isSome →
      (assocLookup args.list.extra k).isSome ∨
        (k.data.head? = some c → isAsciiDigit c = false) := by
  obtain ⟨helts, tail, hextra, hkeys⟩ := decorateList1_spec cfg args
  refine ⟨helts, ?_⟩
  intro k c hk
  rw [hextra] at hk
  rcases assocLookup_append_isSome hk with hk | hk
  · exact Or.inl hk
  · obtain ⟨p, hp, rfl⟩ := assocLookup_isSome_exists_mem hk
    obtain ⟨s, hs⟩ := hkeys p hp
    rw [hs]
    exact Or.inr (dollarIfDigitStr_head_not_digit s c)

/-- C4 amended witness: in the counterexample list, the added key `"$1"`
(for the digit-initial verbatim synonym `"1"`) begins with `$`, not a
digit, and the element vector is preserved. -/
theorem decorateList_added_keys_nondigit_witness :
    (decorateList1 (Config.mk ["verbatim"] "name")
        (.whole (JSList.mk [.str "x", .str "1"] []) none)).1.elts = [.str "x", .str "1"] ∧
    (assocLookup (decorateList1 (Config.mk ["verbatim"] "name")
        (.whole (JSList.mk [.str "x", .str "1"] []) none)).1.extra "$1").isSome ∧
    ((assocLookup (JSList.mk [Item.str "x", Item.str "1"] []).extra "$1").isSome ∨
      ("$1".data.head? = some '$' → isAsciiDigit '$' = false)) :=
  ⟨(decorateList_added_keys_nondigit (Config.mk ["verbatim"] "name")
      (.whole (JSList.mk [.str "x", .str "1"] []) none)).1,
   by decide,
   (decorateList_added_keys_nondigit (Config.mk ["verbatim"] "name")
      (.whole (JSList.mk [.str "x", .str "1"] []) none)).2 "$1" '$' (by decide)⟩

/-- C5 counterexample: `toAllCaps` is not idempotent.  On `"0a"` the first
pass yields `"$0A"`; the second pass turns the `$` into `_`, then inserts an
underscore at the new `0`-to-`A` boundary, yielding `"_0_A"`. -/
theorem toAllCaps_not_idempotent_on_digit_initial :
    toAllCaps (toAllCaps "0a") ≠ toAllCaps "0a" := by decide

/-- C6: a non-blank label and a selection whose first non-transformer entry
is not function-valued (`typeof this[k] !== 'function'`, i.e. an unknown
transformer name) make `getSynonyms` throw the `ReferenceError`
`Unknown transformer "k"` naming that entry; the `.error` result carries no
partial synonym list — the locally accumulated array is discarded. -/
theorem getSynonymsGo_cons_not_function (s : String) (acc : List String) (j : String)
    (rest : List String) (hj : propIsFunction j = false) :
    getSynonymsGo s (j :: rest) acc = .error (unknownMsg j) := by
  unfold propIsFunction at hj
  unfold getSynonymsGo
  revert hj
  cases propKind j with
  | none => intro hj; rfl
  | some pk =>
    cases pk with
    | transformer f => intro hj; simp at hj
    | fnOther => intro hj; simp at hj
    | nonFn => intro hj; rfl

theorem getSynonymsGo_cons_transformer (s : String) (acc : List String) (j : String)
    (rest : List String) (f : String → String) (hf : propKind j = some (.transformer f)) :
    getSynonymsGo s (j :: rest) acc
      = if (f s != "" && !(jsArrayHasKey acc.length (f s))) = true
        then getSynonymsGo s rest (acc ++ [f s])
        else getSynonymsGo s rest acc := by
  conv_lhs => unfold getSynonymsGo
  rw [hf]

theorem getSynonyms_unknown_transformer_errors (s : String) (sel : List String) (k : String)
    (hs : s ≠ "") (hfind : sel.find? (fun j => !(propIsTransformer j)) = some k)
    (hk : propIsFunction k = false) :
    getSynonyms (.vstr s) sel = .error (unknownMsg k) := by
  have main : ∀ (l : List String) (acc : List String),
      l.find? (fun j => !(propIsTransformer j)) = some k →
      getSynonymsGo s l acc = .error (unknownMsg k) := by
    intro l
    induction l with
    | nil => intro acc h; simp at h
    | cons j rest ih =>
      intro acc h
      by_cases hj : propIsTransformer j = true
      · rw [List.find?_cons_of_neg _ (by simp [hj])] at h
        obtain ⟨f, hf⟩ : ∃ f, propKind j = some (.transformer f) := by
          unfold propIsTransformer at hj
          revert hj
          cases propKind j with
          | none => intro hj; simp at hj
          | some pk =>
            cases pk with
            | transformer f => intro hj; exact ⟨f, rfl⟩
            | fnOther => intro hj; simp at hj
            | nonFn => intro hj; simp at hj
        rw [getSynonymsGo_cons_transformer s acc j rest f hf]
        by_cases hpush : (f s != "" && !(jsArrayHasKey acc.length (f s))) = true
        · rw [if_pos hpush]; exact ih _ h
        · rw [if_neg hpush]; exact ih _ h
      · rw [List.find?_cons_of_pos _ (by simp [hj])] at h
        injection h with h
        rw [h]
        exact getSynonymsGo_cons_not_function s acc k rest hk
  have hstep : getSynonyms (.vstr s) sel
      = if s = "" then .ok [] else getSynonymsGo s sel [] := rfl
  rw [hstep, if_neg hs]
  exact main sel [] hfind

/-- C6 witness: `getSynonyms("x", ["verbatim", "bogus"])` throws
`Unknown transformer "bogus"`. -/
theorem getSynonyms_unknown_transformer_errors_witness :
    (("x" : String) ≠ "") ∧
    (["verbatim", "bogus"].find? (fun j => !(propIsTransformer j)) = some "bogus") ∧
    propIsFunction "bogus" = false ∧
    getSynonyms (.vstr "x") ["verbatim", "bogus"] = .error (unknownMsg "bogus") :=
  ⟨by decide, rfl, rfl,
   getSynonyms_unknown_transformer_errors "x" ["verbatim", "bogus"] "bogus"
     (by decide) rfl rfl⟩

/-- A label `getSynonyms` cannot use: not a string, or the empty string
(`typeof name === 'string' && name` fails — `undefined`, `null`, numbers,
booleans and `""` all land here). -/
def labelUnusable : JSVal → Bool
  | .vstr s => s == ""
  | _ => true

/-- C7: a label that is not a string, or is `undefined`, `null` or `""`,
makes `getSynonyms` return the empty sequence without error, for every
selection — the guard runs before any transformer name is resolved, so even
unknown names cause no error. -/
theorem getSynonyms_unusable_label_empty (label : JSVal) (sel : List String)
    (h : labelUnusable label = true) :
    getSynonyms label sel = .ok [] := by
  cases label with
  | vstr s =>
    have : s = "" := by simpa [labelUnusable] using h
    simp [getSynonyms, this]
  | vundef => rfl
  | vnull => rfl
  | vnum n => rfl
  | vbool b => rfl

/-- C7 witness: a `null` label with a selection containing only an unknown
name yields the empty sequence and no error. -/
theorem getSynonyms_unusable_label_empty_witness :
    labelUnusable .vnull = true ∧ getSynonyms .vnull ["bogus"] = .ok [] :=
  ⟨rfl, getSynonyms_unusable_label_empty .vnull ["bogus"] rfl⟩

/-- C8 (drilldown, modelled from the spec): an empty path returns the root
unchanged; `"a.b"` against `{}` creates empty nested mappings at `a` and
`a.b` and returns the innermost; and when every step of the path resolves to
an existing truthy value, the walk changes nothing — no existing non-empty
nested value is ever overwritten. -/
theorem drilldown_spec_properties :
    (∀ root : DVal, drilldown root [] = (root, root)) ∧
    (drilldown (.obj []) ["a", "b"] = (.obj [("a", .obj [("b", .obj [])])], .obj [])) ∧
    (∀ (path : List String) (root v : DVal),
      dresolve root path = some v → drilldown root path = (root, v)) := by
  refine ⟨fun root => rfl, rfl, ?_⟩
  intro path
  induction path with
  | nil =>
    intro root v h
    injection h with h
    rw [h]
    rfl
  | cons k rest ih =>
    intro root v h
    cases root with
    | obj fields =>
      have h2 : (match assocLookup fields k with
          | some w => if w.isFalsy = true then none else dresolve w rest
          | none => none) = some v := h
      cases hw : assocLookup fields k with
      | none => rw [hw] at h2; simp at h2
      | some w =>
        rw [hw] at h2
        have h3 : (if w.isFalsy = true then none else dresolve w rest) = some v := h2
        by_cases hf : w.isFalsy = true
        · rw [if_pos hf] at h3; simp at h3
        · rw [if_neg hf] at h3
          show (DVal.obj (assocSet fields k (drilldown
              (match assocLookup fields k with
               | some w => if w.isFalsy = true then DVal.obj [] else w
               | none => DVal.obj []) rest).1),
            (drilldown
              (match assocLookup fields k with
               | some w => if w.isFalsy = true then DVal.obj [] else w
               | none => DVal.obj []) rest).2) = (DVal.obj fields, v)
          rw [hw]
          show (DVal.obj (assocSet fields k
              (drilldown (if w.isFalsy = true then DVal.obj [] else w) rest).1),
            (drilldown (if w.isFalsy = true then DVal.obj [] else w) rest).2)
            = (DVal.obj fields, v)
          rw [if_neg hf, ih w v h3, assocSet_lookup_self hw]
    | falsy => simp [dresolve] at h
    | prim => simp [dresolve] at h

/-- C8 witness: a root whose `"a"` field holds a truthy mapping is returned
unchanged together with that mapping. -/
theorem drilldown_spec_properties_witness :
    dresolve (.obj [("a", .obj [("x", .prim)])]) ["a"] = some (.obj [("x", .prim)]) ∧
    drilldown (.obj [("a", .obj [("x", .prim)])]) ["a"]
      = (.obj [("a", .obj [("x", .prim)])], .obj [("x", .prim)]) :=
  ⟨rfl, drilldown_spec_properties.2.2 ["a"] (.obj [("a", .obj [("x", .prim)])])
    (.obj [("x", .prim)]) rfl⟩

/-- C9: the claim states both copies of `decorateList` behave identically on
the call shape `(list, propPath)`.  They do not: on
`decorateList([{style:"borderLeft"}], "style")` copy 1 takes `propName` from
the second argument and adds the key `"borderLeft"`, while copy 2 executes
`list = elements = index; propName = list;` — setting `propName` to the list
itself, whose stringification `"[object Object]"` matches no field — and
adds nothing. -/
theorem decorateList_copies_diverge_on_propPath :
    decorateList1 defaultConfig
        (.whole (JSList.mk [Item.record [("style", .vstr "borderLeft")]] []) (some "style"))
      = (JSList.mk [Item.record [("style", .vstr "borderLeft")]]
          [("borderLeft", Item.record [("style", .vstr "borderLeft")])], none) ∧
    decorateList2 defaultConfig
        (.whole (JSList.mk [Item.record [("style", .vstr "borderLeft")]] []) (some "style"))
      = (JSList.mk [Item.record [("style", .vstr "borderLeft")]] [], none) :=
  ⟨rfl, rfl⟩

/-! ## Idempotence analysis of `toAllCaps` (C5)

On digit-free input, the output of `toAllCaps` consists of capitals and
underscores with no two underscores adjacent, and such strings are fixed
points of every stage of the pipeline.  (With digits the function is *not*
idempotent — see the C5 counterexample above.) -/

/-- A character `toAllCaps` can emit from digit-free input: a capital or an
underscore. -/
def NFchar (c : Char) : Bool := isAsciiUpper c || c = '_'

/-- No two adjacent underscores. -/
abbrev NoDD (l : List Char) : Prop := l.Chain' fun a b => ¬(a = '_' ∧ b = '_')

theorem isAsciiLower_iff (c : Char) : isAsciiLower c = true ↔ 97 ≤ c.toNat ∧ c.toNat ≤ 122 := by
  simp [isAsciiLower]

theorem isAsciiUpper_iff (c : Char) : isAsciiUpper c = true ↔ 65 ≤ c.toNat ∧ c.toNat ≤ 90 := by
  simp [isAsciiUpper]

theorem isAsciiDigit_iff (c : Char) : isAsciiDigit c = true ↔ 48 ≤ c.toNat ∧ c.toNat ≤ 57 := by
  simp [isAsciiDigit]

theorem char_toNat_ofNat_lt {n : Nat} (h : n < 55296) : (Char.ofNat n).toNat = n := by
  have hv : n.isValidChar := Or.inl h
  rw [Char.ofNat, dif_pos hv]
  rfl

theorem asciiUpperChar_toNat (c : Char) (h : isAsciiLower c = true) :
    (asciiUpperChar c).toNat = c.toNat - 32 := by
  rw [asciiUpperChar, if_pos h]
  have := (isAsciiLower_iff c).mp h
  exact char_toNat_ofNat_lt (by omega)

theorem isAsciiUpper_asciiUpperChar (c : Char) (h : isAsciiLower c = true) :
    isAsciiUpper (asciiUpperChar c) = true := by
  rw [isAsciiUpper_iff, asciiUpperChar_toNat c h]
  have := (isAsciiLower_iff c).mp h
  omega

theorem asciiUpperChar_of_upper (c : Char) (h : isAsciiUpper c = true) :
    asciiUpperChar c = c := by
  rw [asciiUpperChar, if_neg]
  intro hlow
  have h1 := (isAsciiLower_iff c).mp hlow
  have h2 := (isAsciiUpper_iff c).mp h
  omega

theorem asciiUpperChar_ne_underscore (c : Char) (h : c ≠ '_') :
    asciiUpperChar c ≠ '_' := by
  by_cases hl : isAsciiLower c = true
  · intro heq
    have := congrArg Char.toNat heq
    rw [asciiUpperChar_toNat c hl] at this
    have hb := (isAsciiLower_iff c).mp hl
    have h95 : ('_').toNat = 95 := rfl
    omega
  · rw [asciiUpperChar, if_neg hl]
    exact h

theorem asciiUpperChar_underscore : asciiUpperChar '_' = '_' := rfl

theorem NFchar_not_digit (c : Char) (h : NFchar c = true) : isAsciiDigit c = false := by
  have h2 : isAsciiUpper c = true ∨ c = '_' := by simpa [NFchar] using h
  rcases h2 with h1 | h1
  · have := (isAsciiUpper_iff c).mp h1
    rw [show (isAsciiDigit c = false) = ¬(isAsciiDigit c = true) from by simp,
      isAsciiDigit_iff]
    omega
  · rw [h1]
    rfl

theorem NFchar_ne_underscore_upper (c : Char) (h : NFchar c = true) (hne : c ≠ '_') :
    isAsciiUpper c = true := by
  have h2 : isAsciiUpper c = true ∨ c = '_' := by simpa [NFchar] using h
  rcases h2 with h1 | h1
  · exact h1
  · exact absurd h1 hne

theorem upper_ne_underscore (c : Char) (h : isAsciiUpper c = true) : c ≠ '_' := by
  intro heq
  rw [heq] at h
  simp [isAsciiUpper] at h

theorem upper_not_alnum_is_false : isAlnumCh '_' = false := rfl

/-! Unfolding equations of `puncRunAux`. -/

theorem puncRunAux_cons_alnum (flag : Bool) (a : Char) (cs : List Char)
    (h : isAlnumCh a = true) :
    puncRunAux flag (a :: cs) = a :: puncRunAux false cs := by
  simp only [puncRunAux]
  rw [if_pos h]

theorem puncRunAux_cons_punc_true (a : Char) (cs : List Char) (h : isAlnumCh a = false) :
    puncRunAux true (a :: cs) = puncRunAux true cs := by
  simp only [puncRunAux]
  rw [if_neg (by simp [h]), if_pos trivial]

theorem puncRunAux_cons_punc_false (a : Char) (cs : List Char) (h : isAlnumCh a = false) :
    puncRunAux false (a :: cs) = '_' :: puncRunAux true cs := by
  simp only [puncRunAux]
  rw [if_neg (by simp [h]), if_neg (by simp)]

/-- Every character the punctuation pass emits is an underscore or an
alphanumeric character of the input. -/
theorem puncRunAux_chars (l : List Char) :
    ∀ (flag : Bool) (c : Char), c ∈ puncRunAux flag l →
      c = '_' ∨ (isAlnumCh c = true ∧ c ∈ l) := by
  induction l with
  | nil => intro flag c hc; simp [puncRunAux] at hc
  | cons a cs ih =>
    intro flag c hc
    by_cases ha : isAlnumCh a = true
    · rw [puncRunAux_cons_alnum flag a cs ha] at hc
      rcases List.mem_cons.mp hc with rfl | hc
      · exact Or.inr ⟨ha, List.mem_cons_self ..⟩
      · rcases ih false c hc with h | ⟨h1, h2⟩
        · exact Or.inl h
        · exact Or.inr ⟨h1, List.mem_cons_of_mem _ h2⟩
    · have ha' : isAlnumCh a = false := by simpa using ha
      cases flag with
      | true =>
        rw [puncRunAux_cons_punc_true a cs ha'] at hc
        rcases ih true c hc with h | ⟨h1, h2⟩
        · exact Or.inl h
        · exact Or.inr ⟨h1, List.mem_cons_of_mem _ h2⟩
      | false =>
        rw [puncRunAux_cons_punc_false a cs ha'] at hc
        rcases List.mem_cons.mp hc with rfl | hc
        · exact Or.inl rfl
        · rcases ih true c hc with h | ⟨h1, h2⟩
          · exact Or.inl h
          · exact Or.inr ⟨h1, List.mem_cons_of_mem _ h2⟩

/-- Inside a run (`flag = true`) the next emitted character is alphanumeric:
the pass emits the pending underscore only on entering a run. -/
theorem puncRunAux_true_head (l : List Char) (c : Char)
    (h : (puncRunAux true l).head? = some c) : isAlnumCh c = true := by
  induction l with
  | nil => simp [puncRunAux] at h
  | cons a cs ih =>
    by_cases ha : isAlnumCh a = true
    · rw [puncRunAux_cons_alnum true a cs ha] at h
      simp only [List.head?_cons, Option.some.injEq] at h
      rw [← h]
      exact ha
    · rw [puncRunAux_cons_punc_true a cs (by simpa using ha)] at h
      exact ih h

/-- The punctuation pass never emits two adjacent underscores. -/
theorem puncRunAux_noDD (l : List Char) : ∀ flag : Bool, NoDD (puncRunAux flag l) := by
  induction l with
  | nil => intro flag; simp [puncRunAux]
  | cons a cs ih =>
    intro flag
    by_cases ha : isAlnumCh a = true
    · rw [puncRunAux_cons_alnum flag a cs ha]
      refine List.chain'_cons'.mpr ⟨?_, ih false⟩
      intro y _ hand
      rw [hand.1] at ha
      exact absurd ha (by simp [upper_not_alnum_is_false])
    · have ha' : isAlnumCh a = false := by simpa using ha
      cases flag with
      | true =>
        rw [puncRunAux_cons_punc_true a cs ha']
        exact ih true
      | false =>
        rw [puncRunAux_cons_punc_false a cs ha']
        refine List.chain'_cons'.mpr ⟨?_, ih true⟩
        intro y hy hand
        have hal := puncRunAux_true_head cs y (Option.mem_def.mp hy)
        rw [hand.2] at hal
        exact absurd hal (by simp [upper_not_alnum_is_false])

/-! Properties of the camel-boundary pass. -/

theorem camelBoundary_cons2 (c d : Char) (cs : List Char) :
    camelBoundary (c :: d :: cs)
      = if ((!decide (c = '_') && !(isAsciiUpper c)) && isAsciiUpper d) = true
        then c :: '_' :: camelBoundary (d :: cs)
        else c :: camelBoundary (d :: cs) := rfl

theorem camelBoundary_head (l : List Char) : (camelBoundary l).head? = l.head? := by
  match l with
  | [] => rfl
  | [c] => rfl
  | c :: d :: cs =>
    rw [camelBoundary_cons2]
    split <;> rfl

theorem camelBoundary_chars (l : List Char) :
    ∀ c ∈ camelBoundary l, c = '_' ∨ c ∈ l := by
  induction l with
  | nil => intro c hc; simp [camelBoundary] at hc
  | cons a cs ih =>
    intro c hc
    cases cs with
    | nil =>
      rcases List.mem_singleton.mp hc with rfl
      exact Or.inr (List.mem_singleton.mpr rfl)
    | cons d cs' =>
      rw [camelBoundary_cons2] at hc
      have step : c ∈ camelBoundary (d :: cs') → c = '_' ∨ c ∈ a :: d :: cs' := by
        intro hmem
        rcases ih c hmem with h | h
        · exact Or.inl h
        · exact Or.inr (List.mem_cons_of_mem _ h)
      rcases hsplit : ((!decide (a = '_') && !(isAsciiUpper a)) && isAsciiUpper d) with _ | _
      · rw [hsplit] at hc
        simp only [Bool.false_eq_true, if_false] at hc
        rcases List.mem_cons.mp hc with rfl | hc
        · exact Or.inr (List.mem_cons_self ..)
        · exact step hc
      · rw [hsplit] at hc
        simp only [if_true] at hc
        rcases List.mem_cons.mp hc with rfl | hc
        · exact Or.inr (List.mem_cons_self ..)
        · rcases List.mem_cons.mp hc with rfl | hc
          · exact Or.inl rfl
          · exact step hc

theorem camelBoundary_noDD (l : List Char) (h : NoDD l) : NoDD (camelBoundary l) := by
  induction l with
  | nil => simp [camelBoundary]
  | cons a cs ih =>
    cases cs with
    | nil => simp [camelBoundary]
    | cons d cs' =>
      have hR : ¬(a = '_' ∧ d = '_') := (List.chain'_cons.mp h).1
      have htail : NoDD (d :: cs') := (List.chain'_cons.mp h).2
      have ihd := ih htail
      have hhead : (camelBoundary (d :: cs')).head? = some d := camelBoundary_head (d :: cs')
      rw [camelBoundary_cons2]
      rcases hsplit : ((!decide (a = '_') && !(isAsciiUpper a)) && isAsciiUpper d) with _ | _
      · simp only [Bool.false_eq_true, if_false]
        refine List.chain'_cons'.mpr ⟨?_, ihd⟩
        intro y hy hand
        have hyd : y = d := by
          rw [Option.mem_def, hhead] at hy
          injection hy with hy
          exact hy.symm
        exact hR ⟨hand.1, hyd ▸ hand.2⟩
      · simp only [if_true]
        have hcond := hsplit
        rw [Bool.and_eq_true, Bool.and_eq_true] at hcond
        have hne : ¬(a = '_') := by simpa using hcond.1.1
        have hupd : isAsciiUpper d = true := hcond.2
        refine List.chain'_cons.mpr ⟨fun hand => hne hand.1, ?_⟩
        refine List.chain'_cons'.mpr ⟨?_, ihd⟩
        intro y hy hand
        have hyd : y = d := by
          rw [Option.mem_def, hhead] at hy
          injection hy with hy
          exact hy.symm
        exact upper_ne_underscore d hupd (hyd ▸ hand.2)

/-! Properties of the final upper-casing pass. -/

theorem map_upper_chars (l : List Char)
    (h : ∀ c ∈ l, isAsciiLower c = true ∨ isAsciiUpper c = true ∨ c = '_') :
    ∀ c ∈ l.map asciiUpperChar, NFchar c = true := by
  intro c hc
  obtain ⟨a, ha, rfl⟩ := List.mem_map.mp hc
  rcases h a ha with h1 | h1 | h1
  · have := isAsciiUpper_asciiUpperChar a h1
    simp [NFchar, this]
  · have := asciiUpperChar_of_upper a h1
    simp [NFchar, this, h1]
  · rw [h1, asciiUpperChar_underscore]
    rfl

theorem map_upper_noDD (l : List Char) (h : NoDD l) : NoDD (l.map asciiUpperChar) := by
  refine (List.chain'_map _).mpr (h.imp ?_)
  intro a b hab hand
  have ha : a = '_' := by
    by_contra hne
    exact asciiUpperChar_ne_underscore a hne hand.1
  have hb : b = '_' := by
    by_contra hne
    exact asciiUpperChar_ne_underscore b hne hand.2
  exact hab ⟨ha, hb⟩

theorem map_upper_id (l : List Char) (h : ∀ c ∈ l, NFchar c = true) :
    l.map asciiUpperChar = l := by
  induction l with
  | nil => rfl
  | cons a t ih =>
    have ha := h a (List.mem_cons_self ..)
    have hfix : asciiUpperChar a = a := by
      have h2 : isAsciiUpper a = true ∨ a = '_' := by simpa [NFchar] using ha
      rcases h2 with h1 | h1
      · exact asciiUpperChar_of_upper a h1
      · rw [h1, asciiUpperChar_underscore]
    simp only [List.map_cons, hfix, ih (fun c hc => h c (List.mem_cons_of_mem _ hc))]

/-! Identity of each pass on normal-form strings. -/

theorem puncRunAux_id (l : List Char) (hchar : ∀ c ∈ l, NFchar c = true) (hdd : NoDD l) :
    puncRunAux false l = l ∧
      ((∀ c, l.head? = some c → c ≠ '_') → puncRunAux true l = l) := by
  induction l with
  | nil => exact ⟨rfl, fun _ => rfl⟩
  | cons a cs ih =>
    have ha := hchar a (List.mem_cons_self ..)
    have hcs : ∀ c ∈ cs, NFchar c = true := fun c hc => hchar c (List.mem_cons_of_mem _ hc)
    have hdd' : NoDD cs := (List.chain'_cons'.mp hdd).2
    obtain ⟨ihf, iht⟩ := ih hcs hdd'
    have h2 : isAsciiUpper a = true ∨ a = '_' := by simpa [NFchar] using ha
    rcases h2 with hup | hund
    · have halnum : isAlnumCh a = true := by simp [isAlnumCh, hup]
      constructor
      · rw [puncRunAux_cons_alnum false a cs halnum, ihf]
      · intro _
        rw [puncRunAux_cons_alnum true a cs halnum, ihf]
    · subst hund
      have halnum : isAlnumCh '_' = false := rfl
      have hcs_head : ∀ c, cs.head? = some c → c ≠ '_' := by
        intro c hc heq
        have hpair := (List.chain'_cons'.mp hdd).1
        exact hpair c (Option.mem_def.mpr hc) ⟨rfl, heq⟩
      constructor
      · rw [puncRunAux_cons_punc_false '_' cs halnum, iht hcs_head]
      · intro hnot
        exact absurd rfl (hnot '_' rfl)

theorem camelBoundary_id (l : List Char) (hchar : ∀ c ∈ l, NFchar c = true) :
    camelBoundary l = l := by
  induction l with
  | nil => rfl
  | cons a cs ih =>
    cases cs with
    | nil => rfl
    | cons d cs' =>
      rw [camelBoundary_cons2]
      have ha := hchar a (List.mem_cons_self ..)
      have h2 : isAsciiUpper a = true ∨ a = '_' := by simpa [NFchar] using ha
      have hcond : ((!decide (a = '_') && !(isAsciiUpper a)) && isAsciiUpper d) = false := by
        rcases h2 with h1 | h1
        · simp [h1]
        · simp [h1]
      rw [hcond]
      simp only [Bool.false_eq_true, if_false]
      rw [ih (fun c hc => hchar c (List.mem_cons_of_mem _ hc))]

theorem dollarIfDigitL_id (l : List Char)
    (h : ∀ c, l.head? = some c → isAsciiDigit c = false) :
    dollarIfDigitL l = l := by
  cases l with
  | nil => rfl
  | cons a t =>
    simp only [dollarIfDigitL]
    rw [if_neg]
    simp [h a rfl]

/-! Assembly of the two directions. -/

/-- On digit-free input, `toAllCaps` produces a normal-form string. -/
theorem toAllCapsL_nf (l : List Char) (hnd : ∀ c ∈ l, isAsciiDigit c = false) :
    (∀ c ∈ toAllCapsL l, NFchar c = true) ∧ NoDD (toAllCapsL l) := by
  have ht1chars : ∀ c ∈ puncRunAux false l,
      isAsciiLower c = true ∨ isAsciiUpper c = true ∨ c = '_' := by
    intro c hc
    rcases puncRunAux_chars l false c hc with h | ⟨h1, h2⟩
    · exact Or.inr (Or.inr h)
    · have hd := hnd c h2
      have h3 : (isAsciiLower c = true ∨ isAsciiUpper c = true) ∨ isAsciiDigit c = true := by
        simpa [isAlnumCh, Bool.or_eq_true_iff] using h1
      rw [or_assoc] at h3
      rcases h3 with h4 | h4 | h4
      · exact Or.inl h4
      · exact Or.inr (Or.inl h4)
      · rw [hd] at h4; exact absurd h4 (by simp)
  have ht1dd : NoDD (puncRunAux false l) := puncRunAux_noDD l false
  have ht2chars : ∀ c ∈ camelBoundary (puncRunAux false l),
      isAsciiLower c = true ∨ isAsciiUpper c = true ∨ c = '_' := by
    intro c hc
    rcases camelBoundary_chars (puncRunAux false l) c hc with h | h
    · exact Or.inr (Or.inr h)
    · exact ht1chars c h
  have ht2dd := camelBoundary_noDD (puncRunAux false l) ht1dd
  have ht2head : ∀ c, (camelBoundary (puncRunAux false l)).head? = some c →
      isAsciiDigit c = false := by
    intro c hc
    have hcm : c ∈ camelBoundary (puncRunAux false l) :=
      List.mem_of_mem_head? (Option.mem_def.mpr hc)
    rcases ht2chars c hcm with h1 | h1 | h1
    · have := (isAsciiLower_iff c).mp h1
      rw [show (isAsciiDigit c = false) = ¬(isAsciiDigit c = true) from by simp,
        isAsciiDigit_iff]
      omega
    · have := (isAsciiUpper_iff c).mp h1
      rw [show (isAsciiDigit c = false) = ¬(isAsciiDigit c = true) from by simp,
        isAsciiDigit_iff]
      omega
    · rw [h1]; rfl
  have ht3 : dollarIfDigitL (camelBoundary (puncRunAux false l))
      = camelBoundary (puncRunAux false l) :=
    dollarIfDigitL_id _ ht2head
  have hview : toAllCapsL l = (camelBoundary (puncRunAux false l)).map asciiUpperChar := by
    rw [toAllCapsL, ht3]
  rw [hview]
  exact ⟨map_upper_chars _ ht2chars, map_upper_noDD _ ht2dd⟩

/-- A normal-form string is a fixed point of `toAllCaps`. -/
theorem toAllCapsL_id_of_nf (l : List Char) (hchar : ∀ c ∈ l, NFchar c = true)
    (hdd : NoDD l) : toAllCapsL l = l := by
  have h1 : puncRunAux false l = l := (puncRunAux_id l hchar hdd).1
  have h2 : camelBoundary l = l := camelBoundary_id l hchar
  have h3 : dollarIfDigitL l = l := by
    apply dollarIfDigitL_id
    intro c hc
    exact NFchar_not_digit c (hchar c (List.mem_of_mem_head? (Option.mem_def.mpr hc)))
  rw [toAllCapsL, h1, h2, h3]
  exact map_upper_id l hchar

/-- C5 as amended: `toAllCaps` is idempotent on every string containing no
decimal digit.  (On strings with digits it is not — the counterexample
`"0a"` above — because the `$` sentinel added for a leading digit is
punctuation for the second pass, and a digit-before-capital boundary created
by the final upper-casing acquires a fresh underscore.) -/
theorem toAllCaps_idempotent_digit_free (s : String)
    (h : ∀ c ∈ s.data, isAsciiDigit c = false) :
    toAllCaps (toAllCaps s) = toAllCaps s := by
  show String.mk (toAllCapsL (String.mk (toAllCapsL s.data)).data)
    = String.mk (toAllCapsL s.data)
  have hdata : (String.mk (toAllCapsL s.data)).data = toAllCapsL s.data := rfl
  rw [hdata]
  obtain ⟨hchar, hdd⟩ := toAllCapsL_nf s.data h
  rw [toAllCapsL_id_of_nf _ hchar hdd]

/-- C5 amended witness: `"background-color"` is digit-free and
`toAllCaps` is stable on its output `"BACKGROUND_COLOR"`. -/
theorem toAllCaps_idempotent_digit_free_witness :
    (∀ c ∈ ("background-color" : String).data, isAsciiDigit c = false) ∧
    toAllCaps (toAllCaps "background-color") = toAllCaps "background-color" :=
  ⟨by decide, toAllCaps_idempotent_digit_free "background-color" (by decide)⟩

end Synonomous
